import Mathlib

/-!
Shallow embedding of the `sarsolver` bistatic SAR forward/adjoint operator
pair.  The repository ships only the interface header
(`src/sarsolver/cxx_binding/sarsolver_cxx.hpp`); every kernel body is
therefore modelled from the spec, as recorded on each definition.  Machine
`double` arithmetic is embedded as exact real/complex arithmetic, the FFT as
the unnormalized discrete Fourier transform it computes.
-/

namespace Sarsolver

noncomputable section

open Finset

/-- A triplet of reals mirroring `struct ThreeVector { double contents[3]; }`. -/
def ThreeVector : Type := Fin 3 → ℝ

/-- Modelled from the spec: the body of `distance` is not in the repository
(the header only declares it); per the spec it returns the Euclidean
distance `√Σ(xᵢ−yᵢ)²` between two 3-vectors. -/
def distance (x y : ThreeVector) : ℝ :=
  Real.sqrt (∑ i, (x i - y i) ^ 2)

/-- Modelled from the spec: the body of `bistatic_range` is not in the
repository; per the spec (and the header comment) it returns
`distance(x, trans_pos) + distance(x, recv_pos)`. -/
def bistatic_range (trans_pos recv_pos x : ThreeVector) : ℝ :=
  distance x trans_pos + distance x recv_pos

/-- Modelled from the spec: the body of `math_modulo` is not in the
repository; per the header comment it computes `a` modulo `b` "and gives the
right result for negative numbers", i.e. the non-negative representative,
which for a positive modulus is Lean's `Int.emod`. -/
def math_modulo (a b : ℤ) : ℤ := a % b

/-- The scalar configuration fields of `SarCalculationInfo` / `SarWorker`. -/
structure SarParams where
  centre_frequency : ℝ
  sample_frequency : ℝ
  c_eff : ℝ
  upsample_ratio : ℝ
  sign_multiplier : ℝ

/-- Modelled from the spec: `SarWorker::working_num_fast_times` is
`Nf' = ceil(upsample_ratio * Nf)`. -/
def working_num_fast_times (num_fast_times : ℕ) (upsample_ratio : ℝ) : ℕ :=
  ⌈upsample_ratio * num_fast_times⌉₊

/-- Modelled from the spec: `SarWorker::centre_wavenumber` is
`k0 = 2π * centre_frequency / c_eff`. -/
def centre_wavenumber (prm : SarParams) : ℝ :=
  2 * Real.pi * prm.centre_frequency / prm.c_eff

/-- Modelled from the spec: `SarWorker::working_spatial_sample_rate` is the
number of working range bins per metre of residual range,
`2 * sample_frequency * upsample_ratio / c_eff` (the spec maps residual
range `r` to fractional bin `s = r * (2 * sample_frequency * upsample_ratio
/ c_eff)`); its reciprocal is the spacing between adjacent range samples of
the spatial-domain working buffer. -/
def working_spatial_sample_rate (prm : SarParams) : ℝ :=
  2 * prm.sample_frequency * prm.upsample_ratio / prm.c_eff

/-- The per-pulse aperture geometry of `SarMeasurements` together with the
scatterer positions of `SarBornHypothesis`. -/
structure SarGeometry (num_slow_times num_scatterers : ℕ) where
  transmit_posns : Fin num_slow_times → ThreeVector
  receive_posns : Fin num_slow_times → ThreeVector
  stab_ref_posns : Fin num_slow_times → ThreeVector
  scat_posns : Fin num_scatterers → ThreeVector

variable {Ns Np : ℕ}

/-- Modelled from the spec: the residual range of scatterer `q` seen on
pulse `p`, i.e. its bistatic range minus the stabilization-reference
bistatic range of the pulse. -/
def residual_range (g : SarGeometry Ns Np) (p : Fin Ns) (q : Fin Np) : ℝ :=
  bistatic_range (g.transmit_posns p) (g.receive_posns p) (g.scat_posns q) -
    bistatic_range (g.transmit_posns p) (g.receive_posns p) (g.stab_ref_posns p)

/-- Modelled from the spec: the fractional working-buffer bin index
`s = r_res * (2 * sample_frequency * upsample_ratio / c_eff)`. -/
def frac_bin (prm : SarParams) (g : SarGeometry Ns Np) (p : Fin Ns) (q : Fin Np) : ℝ :=
  residual_range g p q * working_spatial_sample_rate prm

/-- Modelled from the spec: the integer part `n = ⌊s⌋` of the fractional bin
index. -/
def bin_floor (prm : SarParams) (g : SarGeometry Ns Np) (p : Fin Ns) (q : Fin Np) : ℤ :=
  ⌊frac_bin prm g p q⌋

/-- Modelled from the spec: the fractional part `δ = s − n` of the
fractional bin index. -/
def bin_delta (prm : SarParams) (g : SarGeometry Ns Np) (p : Fin Ns) (q : Fin Np) : ℝ :=
  frac_bin prm g p q - bin_floor prm g p q

/-- Modelled from the spec: the centre-frequency carrier phase factor
`exp(sign * j * k0 * r_res)` applied to a scatterer's contribution. -/
def carrier_phase (prm : SarParams) (g : SarGeometry Ns Np) (p : Fin Ns) (q : Fin Np) : ℂ :=
  Complex.exp (prm.sign_multiplier * Complex.I *
    (centre_wavenumber prm * residual_range g p q))

/-- Modelled from the spec: the linear-interpolation deposit weight of
scatterer `q` on working bin `j` for pulse `p`: weight `1 − δ` on bin
`n mod Nf'`, weight `δ` on bin `(n+1) mod Nf'` (summed, so that when the two
bins coincide both accumulations land on the same bin), zero elsewhere. -/
def deposit_weight (Nf' : ℕ) (prm : SarParams) (g : SarGeometry Ns Np)
    (p : Fin Ns) (q : Fin Np) (j : Fin Nf') : ℝ :=
  (if (j : ℤ) = math_modulo (bin_floor prm g p q) Nf' then 1 - bin_delta prm g p q else 0) +
    (if (j : ℤ) = math_modulo (bin_floor prm g p q + 1) Nf' then bin_delta prm g p q else 0)

/-- Modelled from the spec: forward step 2, the spatial-domain working
buffer after depositing every scatterer of pulse `p`: each scatterer adds
`a_q * exp(sign * j * k0 * r_res)` times its interpolation weight into each
bin, summed in scatterer-index order. -/
def deposit_buffer (Nf' : ℕ) (prm : SarParams) (g : SarGeometry Ns Np) (p : Fin Ns)
    (scat_amps : Fin Np → ℂ) (j : Fin Nf') : ℂ :=
  ∑ q, scat_amps q * carrier_phase prm g p q * (deposit_weight Nf' prm g p q j : ℝ)

/-- The twiddle factor `exp(sign * j * 2π * jdx * k / N)` of the
unnormalized discrete Fourier transform of size `N` with sign convention
`sign`. -/
def dft_kernel (sign : ℝ) (N jdx k : ℕ) : ℂ :=
  Complex.exp (sign * Complex.I * (2 * Real.pi * jdx * k / N))

/-- Modelled from the spec: the unnormalized discrete Fourier transform of
size `N` with caller-controlled sign, as computed by the worker's FFT
plans ("unnormalized forward, unnormalized inverse"). -/
def dft (sign : ℝ) {N : ℕ} (B : Fin N → ℂ) (k : Fin N) : ℂ :=
  ∑ j, B j * dft_kernel sign N j k

/-- Modelled from the spec: `SarWorker::execute_forward_evaluate`.  For each
pulse `p`: deposit all scatterers into the zeroed working buffer, FFT with
sign `sign_multiplier`, multiply bin-wise by the waveform spectrum, IFFT
with the conjugate sign, multiply the pulse by `slow_time_weighting[p]`, and
keep the first `Nf` samples as row `p` of the phase-history cube. -/
def execute_forward_evaluate (Nf Nf' : ℕ) (hN : Nf ≤ Nf') (prm : SarParams)
    (g : SarGeometry Ns Np) (waveform_fft : Fin Nf' → ℂ)
    (slow_time_weighting : Fin Ns → ℂ) (scat_amps : Fin Np → ℂ)
    (p : Fin Ns) (i : Fin Nf) : ℂ :=
  slow_time_weighting p *
    dft (-prm.sign_multiplier)
      (fun k => waveform_fft k * dft prm.sign_multiplier (deposit_buffer Nf' prm g p scat_amps) k)
      (Fin.castLE hN i)

/-- Modelled from the spec: adjoint steps 1–2, row `p` of the phase-history
cube multiplied by the conjugated slow-time weight and zero-padded to the
working length `Nf'`. -/
def padded_row (Nf Nf' : ℕ) (slow_time_weighting : Fin Ns → ℂ)
    (phase_history : Fin Ns → Fin Nf → ℂ) (p : Fin Ns) (j : Fin Nf') : ℂ :=
  if hj : (j : ℕ) < Nf then
    (starRingEnd ℂ) (slow_time_weighting p) * phase_history p ⟨j, hj⟩
  else 0

/-- Modelled from the spec: adjoint steps 3–5, the working buffer for pulse
`p` after FFT with sign `sign_multiplier`, bin-wise multiplication by the
conjugated waveform spectrum, and IFFT with the conjugate sign. -/
def adjoint_buffer (Nf Nf' : ℕ) (prm : SarParams) (waveform_fft : Fin Nf' → ℂ)
    (slow_time_weighting : Fin Ns → ℂ) (phase_history : Fin Ns → Fin Nf → ℂ)
    (p : Fin Ns) : Fin Nf' → ℂ :=
  dft (-prm.sign_multiplier)
    (fun k => (starRingEnd ℂ) (waveform_fft k) *
      dft prm.sign_multiplier (padded_row Nf Nf' slow_time_weighting phase_history p) k)

/-- Modelled from the spec: `SarWorker::execute_adjoint_evaluate`.  For
each scatterer `q` it accumulates, onto the existing amplitude, the
conjugated carrier phase times the interpolation-weighted gather from the
adjoint working buffer of every pulse (only the bins `n mod Nf'` and
`(n+1) mod Nf'` carry nonzero weight; see `gather_eq_two_bins`). -/
def execute_adjoint_evaluate (Nf Nf' : ℕ) (prm : SarParams)
    (g : SarGeometry Ns Np) (waveform_fft : Fin Nf' → ℂ)
    (slow_time_weighting : Fin Ns → ℂ) (phase_history : Fin Ns → Fin Nf → ℂ)
    (scat_amps : Fin Np → ℂ) (q : Fin Np) : ℂ :=
  scat_amps q +
    ∑ p, (starRingEnd ℂ) (carrier_phase prm g p q) *
      ∑ j, (deposit_weight Nf' prm g p q j : ℝ) *
        adjoint_buffer Nf Nf' prm waveform_fft slow_time_weighting phase_history p j

/-- The complex inner product on scatterer amplitude vectors, conjugate
linear in the first slot. -/
def amp_inner {n : ℕ} (u v : Fin n → ℂ) : ℂ :=
  ∑ q, (starRingEnd ℂ) (u q) * v q

/-- The complex inner product on phase-history cubes, conjugate linear in
the first slot. -/
def cube_inner {ns nf : ℕ} (u v : Fin ns → Fin nf → ℂ) : ℂ :=
  ∑ p, ∑ i, (starRingEnd ℂ) (u p i) * v p i

/-- The working-buffer bin selected by circular `mod Nf'` indexing. -/
def mod_bin (Nf' : ℕ) (hN : 0 < Nf') (a : ℤ) : Fin Nf' :=
  ⟨(math_modulo a Nf').toNat, by
    have hb : (0 : ℤ) < (Nf' : ℤ) := by exact_mod_cast hN
    have h1 : math_modulo a Nf' < (Nf' : ℤ) := Int.emod_lt_of_pos a hb
    have h2 : 0 ≤ math_modulo a Nf' := Int.emod_nonneg a (ne_of_gt hb)
    omega⟩

lemma dft_kernel_symm (sign : ℝ) (N j k : ℕ) :
    dft_kernel sign N j k = dft_kernel sign N k j := by
  unfold dft_kernel
  congr 1
  ring

lemma conj_dft_kernel (sign : ℝ) (N j k : ℕ) :
    (starRingEnd ℂ) (dft_kernel sign N j k) = dft_kernel (-sign) N j k := by
  unfold dft_kernel
  rw [← Complex.exp_conj]
  congr 1
  simp only [map_mul, map_div₀, Complex.conj_I, Complex.conj_ofReal, map_natCast, map_ofNat]
  push_cast
  ring

lemma dft_transpose (sign : ℝ) {N : ℕ} (B C : Fin N → ℂ) :
    ∑ k, dft sign B k * C k = ∑ j, B j * dft sign C j := by
  unfold dft
  simp only [Finset.sum_mul, Finset.mul_sum]
  rw [Finset.sum_comm]
  refine Finset.sum_congr rfl fun j _ => Finset.sum_congr rfl fun k _ => ?_
  rw [dft_kernel_symm]
  ring

lemma conj_dft (sign : ℝ) {N : ℕ} (B : Fin N → ℂ) (k : Fin N) :
    (starRingEnd ℂ) (dft sign B k) = dft (-sign) (fun j => (starRingEnd ℂ) (B j)) k := by
  unfold dft
  rw [map_sum]
  exact Finset.sum_congr rfl fun j _ => by rw [map_mul, conj_dft_kernel]

lemma dft_zero (sign : ℝ) {N : ℕ} (k : Fin N) : dft sign (fun _ => (0 : ℂ)) k = 0 := by
  simp [dft]

lemma sum_padded {Nf Nf' : ℕ} (hN : Nf ≤ Nf') (f : Fin Nf → ℂ) (h : Fin Nf' → ℂ) :
    (∑ j : Fin Nf', (if hj : (j : ℕ) < Nf then f ⟨j, hj⟩ else 0) * h j) =
      ∑ i : Fin Nf, f i * h (Fin.castLE hN i) := by
  classical
  have h0 : ∀ j ∈ (Finset.univ : Finset (Fin Nf')),
      j ∉ Finset.univ.map (Fin.castLEEmb hN) →
      (if hj : (j : ℕ) < Nf then f ⟨j, hj⟩ else 0) * h j = 0 := by
    intro j _ hj
    have hnot : ¬ (j : ℕ) < Nf := by
      intro hlt
      exact hj (Finset.mem_map.mpr ⟨⟨(j : ℕ), hlt⟩, Finset.mem_univ _, Fin.ext rfl⟩)
    rw [dif_neg hnot, zero_mul]
  rw [← Finset.sum_subset (Finset.subset_univ _) h0, Finset.sum_map]
  refine Finset.sum_congr rfl fun i _ => ?_
  have hi : (((Fin.castLEEmb hN) i : Fin Nf') : ℕ) < Nf := i.isLt
  rw [dif_pos hi]
  rfl

lemma mod_bin_coe {Nf' : ℕ} (hN : 0 < Nf') (a : ℤ) :
    ((mod_bin Nf' hN a : ℕ) : ℤ) = math_modulo a Nf' := by
  have hb : (0 : ℤ) < (Nf' : ℤ) := by exact_mod_cast hN
  exact Int.toNat_of_nonneg (Int.emod_nonneg a (ne_of_gt hb))

lemma sum_if_bin {Nf' : ℕ} (hN : 0 < Nf') (a : ℤ) (c : ℝ) (B : Fin Nf' → ℂ) :
    (∑ j : Fin Nf', ((if (j : ℤ) = math_modulo a Nf' then c else 0 : ℝ) : ℂ) * B j) =
      (c : ℂ) * B (mod_bin Nf' hN a) := by
  classical
  rw [Finset.sum_eq_single (mod_bin Nf' hN a)]
  · rw [if_pos (mod_bin_coe hN a)]
  · intro j _ hj
    have : ¬ ((j : ℤ) = math_modulo a Nf') := by
      intro hcast
      apply hj
      apply Fin.ext
      have := hcast.trans (mod_bin_coe hN a).symm
      exact_mod_cast this
    rw [if_neg this]
    simp
  · intro hmem
    exact absurd (Finset.mem_univ _) hmem

/-- On a positive-length working buffer the interpolation-weighted gather
collapses to the spec's two-term formula
`(1-δ)·B[n mod Nf'] + δ·B[(n+1) mod Nf']`. -/
lemma gather_eq_two_bins {Ns Np Nf' : ℕ} (hN : 0 < Nf') (prm : SarParams)
    (g : SarGeometry Ns Np) (p : Fin Ns) (q : Fin Np) (B : Fin Nf' → ℂ) :
    (∑ j, (deposit_weight Nf' prm g p q j : ℝ) * B j) =
      ((1 - bin_delta prm g p q : ℝ) : ℂ) * B (mod_bin Nf' hN (bin_floor prm g p q)) +
        ((bin_delta prm g p q : ℝ) : ℂ) * B (mod_bin Nf' hN (bin_floor prm g p q + 1)) := by
  have hsplit : ∀ j : Fin Nf', (deposit_weight Nf' prm g p q j : ℂ) * B j =
      ((if (j : ℤ) = math_modulo (bin_floor prm g p q) Nf' then
          (1 - bin_delta prm g p q) else 0 : ℝ) : ℂ) * B j +
        ((if (j : ℤ) = math_modulo (bin_floor prm g p q + 1) Nf' then
          bin_delta prm g p q else 0 : ℝ) : ℂ) * B j := by
    intro j
    rw [deposit_weight]
    push_cast
    ring
  calc (∑ j, (deposit_weight Nf' prm g p q j : ℝ) * B j)
      = (∑ j : Fin Nf', ((if (j : ℤ) = math_modulo (bin_floor prm g p q) Nf' then
            (1 - bin_delta prm g p q) else 0 : ℝ) : ℂ) * B j) +
          ∑ j : Fin Nf', ((if (j : ℤ) = math_modulo (bin_floor prm g p q + 1) Nf' then
            bin_delta prm g p q else 0 : ℝ) : ℂ) * B j := by
        rw [← Finset.sum_add_distrib]
        exact Finset.sum_congr rfl fun j _ => hsplit j
    _ = _ := by rw [sum_if_bin hN, sum_if_bin hN]

/-- C9: the geometry primitives compute exactly the spec formulas:
`distance` is the Euclidean norm of the coordinate differences and
`bistatic_range` is the sum of the two distances from the point to the
transmitter and receiver positions.  (Both are Lean functions of their
arguments alone, hence pure and deterministic.) -/
theorem geometry_primitives_spec :
    (∀ x y : ThreeVector, distance x y = Real.sqrt (∑ i, (x i - y i) ^ 2)) ∧
      ∀ trans_pos recv_pos x : ThreeVector,
        bistatic_range trans_pos recv_pos x = distance x trans_pos + distance x recv_pos :=
  ⟨fun _ _ => rfl, fun _ _ _ => rfl⟩

/-- C10: for every integer `a` (negative included) and positive modulus `b`,
`math_modulo a b` is the unique representative of `a` modulo `b` lying in
`[0, b)`; consequently its `toNat` is a valid index into a buffer of length
`b`, so the circular bin indices `n mod Nf'` and `(n+1) mod Nf'` are always
in range even when the residual range (hence `n`) is negative. -/
theorem math_modulo_spec (a b : ℤ) (hb : 0 < b) :
    0 ≤ math_modulo a b ∧ math_modulo a b < b ∧
      b ∣ a - math_modulo a b ∧
      (∀ m : ℤ, 0 ≤ m → m < b → b ∣ a - m → m = math_modulo a b) ∧
      (math_modulo a b).toNat < b.toNat := by
  have h0 : 0 ≤ math_modulo a b := Int.emod_nonneg a (ne_of_gt hb)
  have h1 : math_modulo a b < b := Int.emod_lt_of_pos a hb
  refine ⟨h0, h1, ⟨a / b, by rw [math_modulo, Int.emod_def]; ring⟩, ?_, by omega⟩
  intro m hm0 hmb hdvd
  calc m = m % b := (Int.emod_eq_of_lt hm0 hmb).symm
    _ = a % b := Int.modEq_iff_dvd.mpr hdvd
    _ = math_modulo a b := rfl

/-- Concrete instance of `math_modulo_spec` at `a = -7`, `b = 3`. -/
theorem math_modulo_spec_witness :
    (0 : ℤ) < 3 ∧
      (0 ≤ math_modulo (-7) 3 ∧ math_modulo (-7) 3 < 3 ∧
        (3 : ℤ) ∣ (-7) - math_modulo (-7) 3 ∧
        (∀ m : ℤ, 0 ≤ m → m < 3 → (3 : ℤ) ∣ (-7) - m → m = math_modulo (-7) 3) ∧
        (math_modulo (-7) 3).toNat < (3 : ℤ).toNat) :=
  ⟨by decide, math_modulo_spec (-7) 3 (by decide)⟩

/-- A built FFT plan: its transform size and sign convention (the
algorithmically relevant state of an `fftw_plan`). -/
structure FftPlan where
  size : ℕ
  sign : ℝ

open scoped Classical in
/-- Modelled from the spec: the validation performed by the `SarWorker`
construction / `setup_forward_evaluate` path (not in the repository, which
only declares it).  Per the spec error-handling design, a sign violation,
an upsample violation, or a shape violation makes setup fail before any FFT
plan is built; otherwise the forward/inverse plan pair is produced. -/
def setup_forward_evaluate (Nf Ns Np Nf' : ℕ) (prm : SarParams) :
    Option (FftPlan × FftPlan) :=
  if (prm.sign_multiplier = 1 ∨ prm.sign_multiplier = -1) ∧
      1 ≤ prm.upsample_ratio ∧ 0 < Nf ∧ 0 < Ns ∧ 0 < Np ∧
      Nf' = working_num_fast_times Nf prm.upsample_ratio then
    some (⟨Nf', prm.sign_multiplier⟩, ⟨Nf', -prm.sign_multiplier⟩)
  else none

/-- An all-zero position vector, for concrete instances. -/
def vec0 : ThreeVector := fun _ => 0

/-- A one-pulse, one-scatterer geometry with everything at the origin. -/
def geom_one : SarGeometry 1 1 :=
  ⟨fun _ => vec0, fun _ => vec0, fun _ => vec0, fun _ => vec0⟩

/-- Unit scalar parameters with sign `+1`. -/
def prm_unit : SarParams := ⟨1, 1, 1, 1, 1⟩

/-- Scalar parameters with the invalid sign multiplier `0`. -/
def prm_bad_sign : SarParams := ⟨1, 1, 1, 1, 0⟩

/-- C6: the worker's derived state satisfies the spec invariants:
`working_num_fast_times` is `⌈upsample_ratio * Nf⌉` (and is at least `Nf`
when `upsample_ratio ≥ 1`), the centre wavenumber is
`2π * centre_frequency / c_eff`, and the spacing between adjacent range
samples of the spatial-domain working buffer (the reciprocal of the working
spatial sample rate) is `c_eff / (2 * sample_frequency * upsample_ratio)`.
The model is stateless, so the invariants hold unchanged across evaluate
calls. -/
theorem worker_derived_state (Nf : ℕ) (prm : SarParams)
    (h : 1 ≤ prm.upsample_ratio) :
    working_num_fast_times Nf prm.upsample_ratio = ⌈prm.upsample_ratio * (Nf : ℝ)⌉₊ ∧
      Nf ≤ working_num_fast_times Nf prm.upsample_ratio ∧
      centre_wavenumber prm = 2 * Real.pi * prm.centre_frequency / prm.c_eff ∧
      (working_spatial_sample_rate prm)⁻¹ =
        prm.c_eff / (2 * prm.sample_frequency * prm.upsample_ratio) := by
  refine ⟨rfl, ?_, rfl, ?_⟩
  · have h1 : (Nf : ℝ) ≤ prm.upsample_ratio * Nf :=
      le_mul_of_one_le_left (Nat.cast_nonneg Nf) h
    calc Nf = ⌈(Nf : ℝ)⌉₊ := (Nat.ceil_natCast Nf).symm
      _ ≤ ⌈prm.upsample_ratio * (Nf : ℝ)⌉₊ := Nat.ceil_mono h1
  · rw [working_spatial_sample_rate, inv_div]

/-- Concrete instance of `worker_derived_state` at `Nf = 2` with unit
parameters. -/
theorem worker_derived_state_witness :
    (1 : ℝ) ≤ prm_unit.upsample_ratio ∧
      (working_num_fast_times 2 prm_unit.upsample_ratio =
          ⌈prm_unit.upsample_ratio * ((2 : ℕ) : ℝ)⌉₊ ∧
        2 ≤ working_num_fast_times 2 prm_unit.upsample_ratio ∧
        centre_wavenumber prm_unit =
          2 * Real.pi * prm_unit.centre_frequency / prm_unit.c_eff ∧
        (working_spatial_sample_rate prm_unit)⁻¹ =
          prm_unit.c_eff /
            (2 * prm_unit.sample_frequency * prm_unit.upsample_ratio)) :=
  ⟨le_refl 1, worker_derived_state 2 prm_unit (le_refl 1)⟩

/-- C7: a sign violation (`sign_multiplier ∉ {+1, −1}`), an upsample
violation (`upsample_ratio < 1`; non-finite doubles have no counterpart in
the exact embedding), or a shape violation (`Nf`, `Ns`, `Np` zero, or `Nf'`
inconsistent with `ceil(upsample_ratio * Nf)`) makes the setup path fail:
no FFT plan is built and no evaluation state is produced. -/
theorem setup_rejects_invalid (Nf Ns Np Nf' : ℕ) (prm : SarParams)
    (hbad : ¬ (prm.sign_multiplier = 1 ∨ prm.sign_multiplier = -1) ∨
      prm.upsample_ratio < 1 ∨ Nf = 0 ∨ Ns = 0 ∨ Np = 0 ∨
      Nf' ≠ working_num_fast_times Nf prm.upsample_ratio) :
    setup_forward_evaluate Nf Ns Np Nf' prm = none := by
  rw [setup_forward_evaluate, if_neg]
  intro hall
  obtain ⟨hsign, hur, hNf, hNs, hNp, hcons⟩ := hall
  rcases hbad with h | h | h | h | h | h
  · exact h hsign
  · exact absurd hur (not_le_of_lt h)
  · omega
  · omega
  · omega
  · exact h hcons

/-- Concrete instance of `setup_rejects_invalid`: sign multiplier `0` is
rejected. -/
theorem setup_rejects_invalid_witness :
    (¬ (prm_bad_sign.sign_multiplier = 1 ∨ prm_bad_sign.sign_multiplier = -1) ∨
      prm_bad_sign.upsample_ratio < 1 ∨ (1 : ℕ) = 0 ∨ (1 : ℕ) = 0 ∨ (1 : ℕ) = 0 ∨
      (1 : ℕ) ≠ working_num_fast_times 1 prm_bad_sign.upsample_ratio) ∧
      setup_forward_evaluate 1 1 1 1 prm_bad_sign = none :=
  ⟨Or.inl (by norm_num [prm_bad_sign]),
    setup_rejects_invalid 1 1 1 1 prm_bad_sign (Or.inl (by norm_num [prm_bad_sign]))⟩

/-- C4: the adjoint accumulates into the existing scatterer amplitudes:
running it a second time on its own output (without zeroing) gives exactly
twice the result of a single run started from zero amplitudes. -/
theorem adjoint_accumulates (Nf Nf' Ns Np : ℕ) (prm : SarParams)
    (g : SarGeometry Ns Np) (waveform_fft : Fin Nf' → ℂ)
    (slow_time_weighting : Fin Ns → ℂ) (phase_history : Fin Ns → Fin Nf → ℂ)
    (q : Fin Np) :
    execute_adjoint_evaluate Nf Nf' prm g waveform_fft slow_time_weighting phase_history
        (fun r => execute_adjoint_evaluate Nf Nf' prm g waveform_fft slow_time_weighting
          phase_history (fun _ => 0) r) q =
      2 * execute_adjoint_evaluate Nf Nf' prm g waveform_fft slow_time_weighting
          phase_history (fun _ => 0) q := by
  simp only [execute_adjoint_evaluate]
  ring

/-- C8: zero preservation.  The forward operator maps the all-zero
amplitude vector to the all-zero cube, an empty hypothesis (`Np = 0`)
likewise produces all zeros for any measurement geometry, and the adjoint
of the all-zero cube adds nothing to the existing scatterer amplitudes. -/
theorem zero_preservation (Nf Nf' Ns Np : ℕ) (hN : Nf ≤ Nf') (prm : SarParams)
    (g : SarGeometry Ns Np) (waveform_fft : Fin Nf' → ℂ)
    (slow_time_weighting : Fin Ns → ℂ) (scat_amps : Fin Np → ℂ) :
    (∀ p i, execute_forward_evaluate Nf Nf' hN prm g waveform_fft slow_time_weighting
        (fun _ => 0) p i = 0) ∧
      (∀ (g0 : SarGeometry Ns 0) (x0 : Fin 0 → ℂ) (p : Fin Ns) (i : Fin Nf),
        execute_forward_evaluate Nf Nf' hN prm g0 waveform_fft slow_time_weighting
          x0 p i = 0) ∧
      ∀ q, execute_adjoint_evaluate Nf Nf' prm g waveform_fft slow_time_weighting
          (fun _ _ => 0) scat_amps q = scat_amps q := by
  refine ⟨?_, ?_, ?_⟩
  · intro p i
    simp [execute_forward_evaluate, dft, deposit_buffer]
  · intro g0 x0 p i
    simp [execute_forward_evaluate, dft, deposit_buffer]
  · intro q
    simp [execute_adjoint_evaluate, adjoint_buffer, dft, padded_row]

/-- Concrete instance of `zero_preservation` in the smallest shape. -/
theorem zero_preservation_witness :
    (1 : ℕ) ≤ 1 ∧
      ((∀ p i, execute_forward_evaluate 1 1 le_rfl prm_unit geom_one (fun _ => 1)
          (fun _ => 1) (fun _ => 0) p i = 0) ∧
        (∀ (g0 : SarGeometry 1 0) (x0 : Fin 0 → ℂ) (p : Fin 1) (i : Fin 1),
          execute_forward_evaluate 1 1 le_rfl prm_unit g0 (fun _ => 1)
            (fun _ => 1) x0 p i = 0) ∧
        ∀ q, execute_adjoint_evaluate 1 1 prm_unit geom_one (fun _ => 1)
            (fun _ => 1) (fun _ _ => 0) (fun _ => (1 : ℂ)) q = (fun _ => (1 : ℂ)) q) :=
  ⟨le_rfl, zero_preservation 1 1 1 1 le_rfl prm_unit geom_one (fun _ => 1)
    (fun _ => 1) (fun _ => 1)⟩

/-- C2: the forward deposition kernel.  For pulse `p` the working buffer
holds, for every scatterer `q` with amplitude `a_q`: the residual range is
the scatterer's bistatic range minus the stabilization-reference bistatic
range; the fractional bin index is
`s = r_res * (2 * sample_frequency * upsample_ratio / c_eff)` with integer
part `n = ⌊s⌋` and fraction `δ = s − n`; and the buffer receives
`a_q * exp(sign * j * k0 * r_res) * (1−δ)` on bin `n mod Nf'` and
`a_q * exp(sign * j * k0 * r_res) * δ` on bin `(n+1) mod Nf'`, with
circular `math_modulo` indexing. -/
theorem forward_deposition {Ns Np : ℕ} (Nf' : ℕ) (prm : SarParams)
    (g : SarGeometry Ns Np) (p : Fin Ns) (scat_amps : Fin Np → ℂ) :
    (∀ q, residual_range g p q =
        bistatic_range (g.transmit_posns p) (g.receive_posns p) (g.scat_posns q) -
          bistatic_range (g.transmit_posns p) (g.receive_posns p) (g.stab_ref_posns p)) ∧
      (∀ q, frac_bin prm g p q = residual_range g p q *
        (2 * prm.sample_frequency * prm.upsample_ratio / prm.c_eff)) ∧
      (∀ q, bin_floor prm g p q = ⌊frac_bin prm g p q⌋ ∧
        bin_delta prm g p q = frac_bin prm g p q - ⌊frac_bin prm g p q⌋) ∧
      (∀ q, carrier_phase prm g p q =
        Complex.exp (prm.sign_multiplier * Complex.I *
          (((2 * Real.pi * prm.centre_frequency / prm.c_eff : ℝ) : ℂ) *
            ((residual_range g p q : ℝ) : ℂ)))) ∧
      ∀ j : Fin Nf', deposit_buffer Nf' prm g p scat_amps j =
        ∑ q, (scat_amps q * carrier_phase prm g p q *
            ((1 - bin_delta prm g p q : ℝ) : ℂ) *
            (if (j : ℤ) = math_modulo (bin_floor prm g p q) Nf' then 1 else 0) +
          scat_amps q * carrier_phase prm g p q *
            ((bin_delta prm g p q : ℝ) : ℂ) *
            (if (j : ℤ) = math_modulo (bin_floor prm g p q + 1) Nf' then 1 else 0)) := by
  refine ⟨fun q => rfl, fun q => rfl, fun q => ⟨rfl, rfl⟩, fun q => rfl, ?_⟩
  intro j
  rw [deposit_buffer]
  refine Finset.sum_congr rfl fun q _ => ?_
  rw [deposit_weight]
  split_ifs <;> push_cast <;> ring

lemma dft_linear (sign : ℝ) {N : ℕ} (a b : ℂ) (B C : Fin N → ℂ) (k : Fin N) :
    dft sign (fun j => a * B j + b * C j) k = a * dft sign B k + b * dft sign C k := by
  unfold dft
  rw [Finset.mul_sum, Finset.mul_sum, ← Finset.sum_add_distrib]
  exact Finset.sum_congr rfl fun j _ => by ring

lemma deposit_buffer_linear {Ns Np : ℕ} (Nf' : ℕ) (prm : SarParams)
    (g : SarGeometry Ns Np) (p : Fin Ns) (a b : ℂ) (x1 x2 : Fin Np → ℂ) (j : Fin Nf') :
    deposit_buffer Nf' prm g p (fun q => a * x1 q + b * x2 q) j =
      a * deposit_buffer Nf' prm g p x1 j + b * deposit_buffer Nf' prm g p x2 j := by
  simp only [deposit_buffer]
  rw [Finset.mul_sum, Finset.mul_sum, ← Finset.sum_add_distrib]
  exact Finset.sum_congr rfl fun q _ => by ring

lemma padded_row_linear {Ns : ℕ} (Nf Nf' : ℕ) (slow_time_weighting : Fin Ns → ℂ)
    (a b : ℂ) (y1 y2 : Fin Ns → Fin Nf → ℂ) (p : Fin Ns) :
    padded_row Nf Nf' slow_time_weighting (fun p i => a * y1 p i + b * y2 p i) p =
      fun j => a * padded_row Nf Nf' slow_time_weighting y1 p j +
        b * padded_row Nf Nf' slow_time_weighting y2 p j := by
  funext j
  by_cases hj : (j : ℕ) < Nf
  · simp only [padded_row, dif_pos hj]
    ring
  · simp only [padded_row, dif_neg hj]
    ring

lemma adjoint_buffer_linear {Ns : ℕ} (Nf Nf' : ℕ) (prm : SarParams)
    (waveform_fft : Fin Nf' → ℂ) (slow_time_weighting : Fin Ns → ℂ)
    (a b : ℂ) (y1 y2 : Fin Ns → Fin Nf → ℂ) (p : Fin Ns) (j : Fin Nf') :
    adjoint_buffer Nf Nf' prm waveform_fft slow_time_weighting
        (fun p i => a * y1 p i + b * y2 p i) p j =
      a * adjoint_buffer Nf Nf' prm waveform_fft slow_time_weighting y1 p j +
        b * adjoint_buffer Nf Nf' prm waveform_fft slow_time_weighting y2 p j := by
  simp only [adjoint_buffer]
  have h2 : (fun k : Fin Nf' => (starRingEnd ℂ) (waveform_fft k) *
      dft prm.sign_multiplier
        (padded_row Nf Nf' slow_time_weighting (fun p i => a * y1 p i + b * y2 p i) p) k) =
      fun k => a * ((starRingEnd ℂ) (waveform_fft k) *
          dft prm.sign_multiplier (padded_row Nf Nf' slow_time_weighting y1 p) k) +
        b * ((starRingEnd ℂ) (waveform_fft k) *
          dft prm.sign_multiplier (padded_row Nf Nf' slow_time_weighting y2 p) k) := by
    funext k
    rw [padded_row_linear Nf Nf' slow_time_weighting a b y1 y2 p, dft_linear]
    ring
  rw [h2, dft_linear]

/-- C3: linearity.  The forward operator satisfies
`forward(a·x₁ + b·x₂) = a·forward(x₁) + b·forward(x₂)` exactly in the ideal
arithmetic of the embedding, and the adjoint (run from zeroed amplitudes)
satisfies the same identity over measurement cubes. -/
theorem forward_adjoint_linear {Ns Np : ℕ} (Nf Nf' : ℕ) (hN : Nf ≤ Nf')
    (prm : SarParams) (g : SarGeometry Ns Np) (waveform_fft : Fin Nf' → ℂ)
    (slow_time_weighting : Fin Ns → ℂ) (a b : ℂ) (x1 x2 : Fin Np → ℂ)
    (y1 y2 : Fin Ns → Fin Nf → ℂ) :
    (∀ p i, execute_forward_evaluate Nf Nf' hN prm g waveform_fft slow_time_weighting
        (fun q => a * x1 q + b * x2 q) p i =
      a * execute_forward_evaluate Nf Nf' hN prm g waveform_fft slow_time_weighting x1 p i +
        b * execute_forward_evaluate Nf Nf' hN prm g waveform_fft slow_time_weighting x2 p i) ∧
      ∀ q, execute_adjoint_evaluate Nf Nf' prm g waveform_fft slow_time_weighting
          (fun p i => a * y1 p i + b * y2 p i) (fun _ => 0) q =
        a * execute_adjoint_evaluate Nf Nf' prm g waveform_fft slow_time_weighting y1
            (fun _ => 0) q +
          b * execute_adjoint_evaluate Nf Nf' prm g waveform_fft slow_time_weighting y2
            (fun _ => 0) q := by
  constructor
  · intro p i
    simp only [execute_forward_evaluate]
    have hdep : (fun k : Fin Nf' => waveform_fft k *
        dft prm.sign_multiplier (deposit_buffer Nf' prm g p (fun q => a * x1 q + b * x2 q)) k) =
        fun k => a * (waveform_fft k *
            dft prm.sign_multiplier (deposit_buffer Nf' prm g p x1) k) +
          b * (waveform_fft k *
            dft prm.sign_multiplier (deposit_buffer Nf' prm g p x2) k) := by
      funext k
      have h1 : deposit_buffer Nf' prm g p (fun q => a * x1 q + b * x2 q) =
          fun j => a * deposit_buffer Nf' prm g p x1 j + b * deposit_buffer Nf' prm g p x2 j :=
        funext fun j => deposit_buffer_linear Nf' prm g p a b x1 x2 j
      rw [h1, dft_linear]
      ring
    rw [hdep, dft_linear]
    ring
  · intro q
    simp only [execute_adjoint_evaluate]
    have hbuf : ∀ (p : Fin Ns) (j : Fin Nf'),
        adjoint_buffer Nf Nf' prm waveform_fft slow_time_weighting
            (fun p i => a * y1 p i + b * y2 p i) p j =
          a * adjoint_buffer Nf Nf' prm waveform_fft slow_time_weighting y1 p j +
            b * adjoint_buffer Nf Nf' prm waveform_fft slow_time_weighting y2 p j :=
      fun p j => adjoint_buffer_linear Nf Nf' prm waveform_fft slow_time_weighting a b y1 y2 p j
    simp only [hbuf]
    have h3 : ∀ p : Fin Ns,
        (∑ j, ((deposit_weight Nf' prm g p q j : ℝ) : ℂ) *
          (a * adjoint_buffer Nf Nf' prm waveform_fft slow_time_weighting y1 p j +
            b * adjoint_buffer Nf Nf' prm waveform_fft slow_time_weighting y2 p j)) =
        a * (∑ j, ((deposit_weight Nf' prm g p q j : ℝ) : ℂ) *
            adjoint_buffer Nf Nf' prm waveform_fft slow_time_weighting y1 p j) +
          b * ∑ j, ((deposit_weight Nf' prm g p q j : ℝ) : ℂ) *
            adjoint_buffer Nf Nf' prm waveform_fft slow_time_weighting y2 p j := by
      intro p
      rw [Finset.mul_sum, Finset.mul_sum, ← Finset.sum_add_distrib]
      exact Finset.sum_congr rfl fun j _ => by ring
    simp only [h3]
    have h4 : (∑ p, (starRingEnd ℂ) (carrier_phase prm g p q) *
        (a * (∑ j, ((deposit_weight Nf' prm g p q j : ℝ) : ℂ) *
            adjoint_buffer Nf Nf' prm waveform_fft slow_time_weighting y1 p j) +
          b * ∑ j, ((deposit_weight Nf' prm g p q j : ℝ) : ℂ) *
            adjoint_buffer Nf Nf' prm waveform_fft slow_time_weighting y2 p j)) =
        a * (∑ p, (starRingEnd ℂ) (carrier_phase prm g p q) *
            ∑ j, ((deposit_weight Nf' prm g p q j : ℝ) : ℂ) *
              adjoint_buffer Nf Nf' prm waveform_fft slow_time_weighting y1 p j) +
          b * ∑ p, (starRingEnd ℂ) (carrier_phase prm g p q) *
            ∑ j, ((deposit_weight Nf' prm g p q j : ℝ) : ℂ) *
              adjoint_buffer Nf Nf' prm waveform_fft slow_time_weighting y2 p j := by
      rw [Finset.mul_sum, Finset.mul_sum, ← Finset.sum_add_distrib]
      exact Finset.sum_congr rfl fun p _ => by ring
    rw [h4]
    ring

/-- Concrete instance of `forward_adjoint_linear` in the smallest shape. -/
theorem forward_adjoint_linear_witness :
    (1 : ℕ) ≤ 1 ∧
      ((∀ p i, execute_forward_evaluate 1 1 le_rfl prm_unit geom_one (fun _ => 1)
          (fun _ => 1) (fun q => 2 * (fun _ => (1 : ℂ)) q + 3 * (fun _ => (0 : ℂ)) q) p i =
        2 * execute_forward_evaluate 1 1 le_rfl prm_unit geom_one (fun _ => 1)
            (fun _ => 1) (fun _ => (1 : ℂ)) p i +
          3 * execute_forward_evaluate 1 1 le_rfl prm_unit geom_one (fun _ => 1)
            (fun _ => 1) (fun _ => (0 : ℂ)) p i) ∧
        ∀ q, execute_adjoint_evaluate 1 1 prm_unit geom_one (fun _ => 1) (fun _ => 1)
            (fun p i => 2 * (fun _ _ => (1 : ℂ)) p i + 3 * (fun _ _ => (0 : ℂ)) p i)
            (fun _ => 0) q =
          2 * execute_adjoint_evaluate 1 1 prm_unit geom_one (fun _ => 1) (fun _ => 1)
              (fun _ _ => (1 : ℂ)) (fun _ => 0) q +
            3 * execute_adjoint_evaluate 1 1 prm_unit geom_one (fun _ => 1) (fun _ => 1)
              (fun _ _ => (0 : ℂ)) (fun _ => 0) q) :=
  ⟨le_rfl, forward_adjoint_linear 1 1 le_rfl prm_unit geom_one (fun _ => 1) (fun _ => 1)
    2 3 (fun _ => 1) (fun _ => 0) (fun _ _ => 1) (fun _ _ => 0)⟩

lemma conj_deposit {Ns Np : ℕ} (Nf' : ℕ) (prm : SarParams) (g : SarGeometry Ns Np)
    (p : Fin Ns) (x : Fin Np → ℂ) (j : Fin Nf') :
    (starRingEnd ℂ) (deposit_buffer Nf' prm g p x j) =
      ∑ q, (starRingEnd ℂ) (x q) * (starRingEnd ℂ) (carrier_phase prm g p q) *
        ((deposit_weight Nf' prm g p q j : ℝ) : ℂ) := by
  rw [deposit_buffer, map_sum]
  exact Finset.sum_congr rfl fun q _ => by
    rw [map_mul, map_mul, Complex.conj_ofReal]

lemma per_pulse_adjoint {Ns Np : ℕ} (Nf Nf' : ℕ) (hN : Nf ≤ Nf') (prm : SarParams)
    (g : SarGeometry Ns Np) (waveform_fft : Fin Nf' → ℂ)
    (slow_time_weighting : Fin Ns → ℂ) (x : Fin Np → ℂ)
    (y : Fin Ns → Fin Nf → ℂ) (p : Fin Ns) :
    (∑ i : Fin Nf, (starRingEnd ℂ)
        (execute_forward_evaluate Nf Nf' hN prm g waveform_fft slow_time_weighting x p i) *
          y p i) =
      ∑ q, (starRingEnd ℂ) (x q) * ((starRingEnd ℂ) (carrier_phase prm g p q) *
        ∑ j, ((deposit_weight Nf' prm g p q j : ℝ) : ℂ) *
          adjoint_buffer Nf Nf' prm waveform_fft slow_time_weighting y p j) := by
  have hRHS : (∑ q, (starRingEnd ℂ) (x q) * ((starRingEnd ℂ) (carrier_phase prm g p q) *
      ∑ j, ((deposit_weight Nf' prm g p q j : ℝ) : ℂ) *
        adjoint_buffer Nf Nf' prm waveform_fft slow_time_weighting y p j)) =
      ∑ j, (starRingEnd ℂ) (deposit_buffer Nf' prm g p x j) *
        adjoint_buffer Nf Nf' prm waveform_fft slow_time_weighting y p j := by
    calc (∑ q, (starRingEnd ℂ) (x q) * ((starRingEnd ℂ) (carrier_phase prm g p q) *
        ∑ j, ((deposit_weight Nf' prm g p q j : ℝ) : ℂ) *
          adjoint_buffer Nf Nf' prm waveform_fft slow_time_weighting y p j))
        = ∑ q, ∑ j, (starRingEnd ℂ) (x q) * (starRingEnd ℂ) (carrier_phase prm g p q) *
            ((deposit_weight Nf' prm g p q j : ℝ) : ℂ) *
            adjoint_buffer Nf Nf' prm waveform_fft slow_time_weighting y p j := by
          refine Finset.sum_congr rfl fun q _ => ?_
          rw [Finset.mul_sum, Finset.mul_sum]
          exact Finset.sum_congr rfl fun j _ => by ring
      _ = ∑ j, ∑ q, (starRingEnd ℂ) (x q) * (starRingEnd ℂ) (carrier_phase prm g p q) *
            ((deposit_weight Nf' prm g p q j : ℝ) : ℂ) *
            adjoint_buffer Nf Nf' prm waveform_fft slow_time_weighting y p j :=
          Finset.sum_comm
      _ = ∑ j, (starRingEnd ℂ) (deposit_buffer Nf' prm g p x j) *
            adjoint_buffer Nf Nf' prm waveform_fft slow_time_weighting y p j := by
          refine Finset.sum_congr rfl fun j _ => ?_
          rw [conj_deposit, Finset.sum_mul]
  rw [hRHS]
  simp only [adjoint_buffer]
  calc (∑ i : Fin Nf, (starRingEnd ℂ)
        (execute_forward_evaluate Nf Nf' hN prm g waveform_fft slow_time_weighting x p i) *
          y p i)
      = ∑ i : Fin Nf, ((starRingEnd ℂ) (slow_time_weighting p) * y p i) *
          (starRingEnd ℂ) (dft (-prm.sign_multiplier)
            (fun k => waveform_fft k *
              dft prm.sign_multiplier (deposit_buffer Nf' prm g p x) k)
            (Fin.castLE hN i)) := by
        refine Finset.sum_congr rfl fun i _ => ?_
        simp only [execute_forward_evaluate, map_mul]
        ring
    _ = ∑ j, padded_row Nf Nf' slow_time_weighting y p j *
          (starRingEnd ℂ) (dft (-prm.sign_multiplier)
            (fun k => waveform_fft k *
              dft prm.sign_multiplier (deposit_buffer Nf' prm g p x) k) j) := by
        simp only [padded_row]
        rw [sum_padded hN (fun i => (starRingEnd ℂ) (slow_time_weighting p) * y p i)
          (fun j => (starRingEnd ℂ) (dft (-prm.sign_multiplier)
            (fun k => waveform_fft k *
              dft prm.sign_multiplier (deposit_buffer Nf' prm g p x) k) j))]
    _ = ∑ j, padded_row Nf Nf' slow_time_weighting y p j *
          dft prm.sign_multiplier
            (fun k => (starRingEnd ℂ) (waveform_fft k *
              dft prm.sign_multiplier (deposit_buffer Nf' prm g p x) k)) j := by
        refine Finset.sum_congr rfl fun j _ => ?_
        have h := conj_dft (-prm.sign_multiplier)
          (fun k => waveform_fft k *
            dft prm.sign_multiplier (deposit_buffer Nf' prm g p x) k) j
        rw [neg_neg] at h
        rw [h]
    _ = ∑ k, dft prm.sign_multiplier (padded_row Nf Nf' slow_time_weighting y p) k *
          (starRingEnd ℂ) (waveform_fft k *
            dft prm.sign_multiplier (deposit_buffer Nf' prm g p x) k) := by
        rw [dft_transpose prm.sign_multiplier (padded_row Nf Nf' slow_time_weighting y p)
          (fun k => (starRingEnd ℂ) (waveform_fft k *
            dft prm.sign_multiplier (deposit_buffer Nf' prm g p x) k))]
    _ = ∑ k, dft (-prm.sign_multiplier)
          (fun j => (starRingEnd ℂ) (deposit_buffer Nf' prm g p x j)) k *
          ((starRingEnd ℂ) (waveform_fft k) *
            dft prm.sign_multiplier (padded_row Nf Nf' slow_time_weighting y p) k) := by
        refine Finset.sum_congr rfl fun k _ => ?_
        rw [map_mul, conj_dft prm.sign_multiplier (deposit_buffer Nf' prm g p x) k]
        ring
    _ = ∑ j, (starRingEnd ℂ) (deposit_buffer Nf' prm g p x j) *
          dft (-prm.sign_multiplier)
            (fun k => (starRingEnd ℂ) (waveform_fft k) *
              dft prm.sign_multiplier (padded_row Nf Nf' slow_time_weighting y p) k) j :=
        dft_transpose (-prm.sign_multiplier)
          (fun j => (starRingEnd ℂ) (deposit_buffer Nf' prm g p x j))
          (fun k => (starRingEnd ℂ) (waveform_fft k) *
            dft prm.sign_multiplier (padded_row Nf Nf' slow_time_weighting y p) k)

/-- C1: adjointness of the operator pair.  For every shape, aperture
geometry, waveform spectrum, slow-time weighting, amplitude vector `x` and
measurement cube `y`, the complex inner product `⟨forward(x), y⟩` equals
`⟨x, adjoint(y)⟩` exactly in the ideal arithmetic of the embedding (the
adjoint being run from zeroed amplitudes).  The floating-point round-off
bound of the claim concerns `double` arithmetic and has no counterpart in
the exact embedding. -/
theorem forward_adjoint_adjointness {Ns Np : ℕ} (Nf Nf' : ℕ) (hN : Nf ≤ Nf')
    (prm : SarParams) (g : SarGeometry Ns Np) (waveform_fft : Fin Nf' → ℂ)
    (slow_time_weighting : Fin Ns → ℂ) (x : Fin Np → ℂ)
    (y : Fin Ns → Fin Nf → ℂ) :
    cube_inner (execute_forward_evaluate Nf Nf' hN prm g waveform_fft slow_time_weighting x)
        y =
      amp_inner x (execute_adjoint_evaluate Nf Nf' prm g waveform_fft slow_time_weighting y
        (fun _ => 0)) := by
  rw [cube_inner, amp_inner]
  simp only [execute_adjoint_evaluate]
  calc (∑ p, ∑ i, (starRingEnd ℂ)
        (execute_forward_evaluate Nf Nf' hN prm g waveform_fft slow_time_weighting x p i) *
          y p i)
      = ∑ p, ∑ q, (starRingEnd ℂ) (x q) * ((starRingEnd ℂ) (carrier_phase prm g p q) *
          ∑ j, ((deposit_weight Nf' prm g p q j : ℝ) : ℂ) *
            adjoint_buffer Nf Nf' prm waveform_fft slow_time_weighting y p j) :=
        Finset.sum_congr rfl fun p _ =>
          per_pulse_adjoint Nf Nf' hN prm g waveform_fft slow_time_weighting x y p
    _ = ∑ q, ∑ p, (starRingEnd ℂ) (x q) * ((starRingEnd ℂ) (carrier_phase prm g p q) *
          ∑ j, ((deposit_weight Nf' prm g p q j : ℝ) : ℂ) *
            adjoint_buffer Nf Nf' prm waveform_fft slow_time_weighting y p j) :=
        Finset.sum_comm
    _ = ∑ q, (starRingEnd ℂ) (x q) *
          ((0 : ℂ) + ∑ p, (starRingEnd ℂ) (carrier_phase prm g p q) *
            ∑ j, ((deposit_weight Nf' prm g p q j : ℝ) : ℂ) *
              adjoint_buffer Nf Nf' prm waveform_fft slow_time_weighting y p j) := by
        refine Finset.sum_congr rfl fun q _ => ?_
        rw [zero_add, Finset.mul_sum]

/-- Concrete instance of `forward_adjoint_adjointness` in the smallest
shape. -/
theorem forward_adjoint_adjointness_witness :
    (1 : ℕ) ≤ 1 ∧
      cube_inner (execute_forward_evaluate 1 1 le_rfl prm_unit geom_one (fun _ => 1)
          (fun _ => 1) (fun _ => 1)) (fun _ _ => 1) =
        amp_inner (fun _ => 1) (execute_adjoint_evaluate 1 1 prm_unit geom_one (fun _ => 1)
          (fun _ => 1) (fun _ _ => 1) (fun _ => 0)) :=
  ⟨le_rfl, forward_adjoint_adjointness 1 1 le_rfl prm_unit geom_one (fun _ => 1)
    (fun _ => 1) (fun _ => 1) (fun _ _ => 1)⟩

/-- Unit scalar parameters with an arbitrary sign multiplier. -/
def prm_sign (s : ℝ) : SarParams := ⟨1, 1, 1, 1, s⟩

lemma forward_trivial_eval (s : ℝ) (x : Fin 1 → ℂ) :
    execute_forward_evaluate 1 1 le_rfl (prm_sign s) geom_one (fun _ => 1) (fun _ => 1)
      x 0 0 = x 0 := by
  have hres : ∀ p q : Fin 1, residual_range geom_one p q = 0 := by
    intro p q
    rw [residual_range]
    simp [geom_one]
  have hphase : ∀ p q : Fin 1, carrier_phase (prm_sign s) geom_one p q = 1 := by
    intro p q
    rw [carrier_phase, hres]
    simp
  have hfrac : ∀ p q : Fin 1, frac_bin (prm_sign s) geom_one p q = 0 := by
    intro p q
    rw [frac_bin, hres, zero_mul]
  have hfloor : ∀ p q : Fin 1, bin_floor (prm_sign s) geom_one p q = 0 := by
    intro p q
    rw [bin_floor, hfrac, Int.floor_zero]
  have hdelta : ∀ p q : Fin 1, bin_delta (prm_sign s) geom_one p q = 0 := by
    intro p q
    rw [bin_delta, hfrac, hfloor]
    simp
  have hweight : ∀ p q j : Fin 1, deposit_weight 1 (prm_sign s) geom_one p q j = 1 := by
    intro p q j
    have hj : j = 0 := Subsingleton.elim j 0
    subst hj
    rw [deposit_weight, hfloor, hdelta]
    norm_num [math_modulo]
  have hdep : ∀ j : Fin 1, deposit_buffer 1 (prm_sign s) geom_one 0 x j = x 0 := by
    intro j
    rw [deposit_buffer, Fin.sum_univ_one, hphase, hweight]
    norm_num
  have hdft : ∀ (sg : ℝ) (B : Fin 1 → ℂ) (k : Fin 1), dft sg B k = B 0 := by
    intro sg B k
    rw [dft, Fin.sum_univ_one]
    have hker : dft_kernel sg 1 ((0 : Fin 1) : ℕ) ((k : ℕ)) = 1 := by
      rw [dft_kernel]
      simp
    rw [hker, mul_one]
  simp only [execute_forward_evaluate, hdft, hdep, one_mul]

/-- C5 counterexample: with the one-pulse, one-scatterer geometry at the
origin, unit spectrum and weighting (both self-conjugate) and the complex
amplitude `x = i`, the forward run with `sign = +1` and the forward run
with `sign = −1` both produce the cube entry `i`, which is not the complex
conjugate of `i`; so the cubes are not element-wise conjugates of each
other as the claim states. -/
theorem sign_duality_counterexample :
    ¬ (execute_forward_evaluate 1 1 le_rfl (prm_sign 1) geom_one (fun _ => 1) (fun _ => 1)
          (fun _ => Complex.I) 0 0 =
        (starRingEnd ℂ) (execute_forward_evaluate 1 1 le_rfl (prm_sign (-1)) geom_one
          (fun _ => 1) (fun _ => 1) (fun _ => Complex.I) 0 0)) := by
  rw [forward_trivial_eval 1 (fun _ => Complex.I),
    forward_trivial_eval (-1) (fun _ => Complex.I)]
  norm_num [Complex.ext_iff]

/-- The parameter record with the sign convention flipped and everything
else unchanged. -/
def flip_sign (prm : SarParams) : SarParams :=
  ⟨prm.centre_frequency, prm.sample_frequency, prm.c_eff, prm.upsample_ratio,
    -prm.sign_multiplier⟩

lemma flip_sign_mult (prm : SarParams) :
    (flip_sign prm).sign_multiplier = -prm.sign_multiplier := rfl

lemma flip_weight {Ns Np : ℕ} (Nf' : ℕ) (prm : SarParams) (g : SarGeometry Ns Np)
    (p : Fin Ns) (q : Fin Np) (j : Fin Nf') :
    deposit_weight Nf' (flip_sign prm) g p q j = deposit_weight Nf' prm g p q j := rfl

lemma flip_phase {Ns Np : ℕ} (prm : SarParams) (g : SarGeometry Ns Np)
    (p : Fin Ns) (q : Fin Np) :
    carrier_phase (flip_sign prm) g p q = (starRingEnd ℂ) (carrier_phase prm g p q) := by
  rw [carrier_phase, carrier_phase, ← Complex.exp_conj]
  congr 1
  simp only [map_mul, Complex.conj_I, Complex.conj_ofReal, flip_sign_mult]
  have hk : centre_wavenumber (flip_sign prm) = centre_wavenumber prm := rfl
  rw [hk]
  push_cast
  ring

lemma flip_deposit {Ns Np : ℕ} (Nf' : ℕ) (prm : SarParams) (g : SarGeometry Ns Np)
    (p : Fin Ns) (x : Fin Np → ℂ) (j : Fin Nf') :
    deposit_buffer Nf' (flip_sign prm) g p (fun q => (starRingEnd ℂ) (x q)) j =
      (starRingEnd ℂ) (deposit_buffer Nf' prm g p x j) := by
  rw [deposit_buffer, deposit_buffer, map_sum]
  refine Finset.sum_congr rfl fun q _ => ?_
  rw [map_mul, map_mul, Complex.conj_ofReal, flip_phase, flip_weight]

/-- C5 (amended): running forward with the sign convention flipped, the
waveform spectrum, the slow-time weighting AND the scatterer amplitudes all
conjugated consistently, produces the element-wise complex conjugate of the
original cube.  (Conjugating the amplitudes is forced by the
counterexample: the operator is linear, not conjugate-linear, in `x`.) -/
theorem sign_duality_amended {Ns Np : ℕ} (Nf Nf' : ℕ) (hN : Nf ≤ Nf')
    (prm : SarParams) (g : SarGeometry Ns Np) (waveform_fft : Fin Nf' → ℂ)
    (slow_time_weighting : Fin Ns → ℂ) (x : Fin Np → ℂ) (p : Fin Ns) (i : Fin Nf) :
    execute_forward_evaluate Nf Nf' hN (flip_sign prm) g
        (fun k => (starRingEnd ℂ) (waveform_fft k))
        (fun r => (starRingEnd ℂ) (slow_time_weighting r))
        (fun q => (starRingEnd ℂ) (x q)) p i =
      (starRingEnd ℂ)
        (execute_forward_evaluate Nf Nf' hN prm g waveform_fft slow_time_weighting x p i) := by
  simp only [execute_forward_evaluate, flip_sign_mult, neg_neg, map_mul]
  congr 1
  have h := conj_dft (-prm.sign_multiplier)
    (fun k => waveform_fft k * dft prm.sign_multiplier (deposit_buffer Nf' prm g p x) k)
    (Fin.castLE hN i)
  rw [neg_neg] at h
  rw [h]
  congr 1
  funext k
  rw [map_mul, conj_dft prm.sign_multiplier (deposit_buffer Nf' prm g p x) k]
  have hB : (deposit_buffer Nf' (flip_sign prm) g p fun q => (starRingEnd ℂ) (x q)) =
      fun j => (starRingEnd ℂ) (deposit_buffer Nf' prm g p x j) :=
    funext fun j => flip_deposit Nf' prm g p x j
  rw [hB]

/-- Concrete instance of `sign_duality_amended` in the smallest shape. -/
theorem sign_duality_amended_witness :
    (1 : ℕ) ≤ 1 ∧
      execute_forward_evaluate 1 1 le_rfl (flip_sign (prm_sign 1)) geom_one
          (fun k => (starRingEnd ℂ) ((fun _ => (1 : ℂ)) k))
          (fun r => (starRingEnd ℂ) ((fun _ => (1 : ℂ)) r))
          (fun q => (starRingEnd ℂ) ((fun _ => Complex.I) q)) 0 0 =
        (starRingEnd ℂ)
          (execute_forward_evaluate 1 1 le_rfl (prm_sign 1) geom_one (fun _ => (1 : ℂ))
            (fun _ => (1 : ℂ)) (fun _ => Complex.I) 0 0) :=
  ⟨le_rfl, sign_duality_amended 1 1 le_rfl (prm_sign 1) geom_one (fun _ => 1)
    (fun _ => 1) (fun _ => Complex.I) 0 0⟩

end

end Sarsolver
